import Mathlib

/-!
# Verification of an Earley recognizer

Shallow embedding of `src/EarleyParser.py`: a chart-based Earley
recognizer for context-free grammars.  Nonterminals are a closed
enumeration, terminals are strings, and the recognizer populates a chart
of deduplicated item lists (one per input position) by a
predictor/completer/scanner fixpoint loop, finally counting the
accepting items in the last column.

Python's per-column `while changed` loop is embedded with an explicit
fuel argument `chartFuel`; the development proves that this fuel always
suffices (one further pass after `closeColumn` adds nothing), so the
embedded recognizer computes the same chart as the unbounded loop.
Python set iteration is embedded as insertion-ordered duplicate-free
lists.
-/

set_option autoImplicit false

namespace Earley

/-- The closed enumeration of nonterminals (`class NonTerminal(Enum)`). -/
inductive NonTerminal : Type
  | S | NP | VP | PP | N | V | P
deriving DecidableEq, Repr

/-- A grammar symbol: `Union[NonTerminal, str]`. -/
inductive Symbol : Type
  | nt : NonTerminal → Symbol
  | t : String → Symbol
deriving DecidableEq, Repr

open Symbol NonTerminal in
/-- The sample grammar table `RULES` from the source, in declaration order. -/
def RULES : List (NonTerminal × List (List Symbol)) :=
  [ (S , [[nt NP, nt VP]]),
    (NP, [[nt N, nt PP], [nt N]]),
    (PP, [[nt P, nt NP]]),
    (VP, [[nt VP, nt PP], [nt V, nt VP], [nt V, nt NP], [nt V]]),
    (N , [[t "can"], [t "fish"], [t "they"], [t "rivers"], [t "December"]]),
    (P , [[t "in"]]),
    (V , [[t "can"], [t "they"]]) ]

/-- `Production`: an immutable `(lhs, rhs)` pair, value equality. -/
structure Production : Type where
  lhs : NonTerminal
  rhs : List Symbol
deriving DecidableEq, Repr

/-- `State`: an Earley item `(production, dot, start)`, value equality. -/
structure State : Type where
  production : Production
  dot : Nat
  start : Nat
deriving DecidableEq, Repr

/-- `State.is_complete`: the dot has reached the end of the right-hand side. -/
def State.is_complete (st : State) : Bool :=
  decide (st.production.rhs.length ≤ st.dot)

/-- `State.next_symbol`: the symbol after the dot, `none` when complete. -/
def State.next_symbol (st : State) : Option Symbol :=
  if st.is_complete then none else st.production.rhs.get? st.dot

/-- `State.advance`: a new item with the dot moved one symbol right. -/
def State.advance (st : State) : State :=
  { production := st.production, dot := st.dot + 1, start := st.start }

/-- `Grammar`: the rule table (an insertion-ordered dictionary) plus a start
symbol. -/
structure Grammar : Type where
  rules : List (NonTerminal × List (List Symbol))
  start : NonTerminal

/-- `Grammar.productions_for`: `self.rules.get(nt, [])`, each alternative
paired with `nt` as a `Production`. -/
def Grammar.productions_for (g : Grammar) (nt : NonTerminal) : List Production :=
  ((g.rules.lookup nt).getD []).map (fun rhs => Production.mk nt rhs)

/-- `Chart`: `n+1` deduplicated columns of items.  Python's per-column `set`
is embedded as an insertion-ordered list without duplicates. -/
structure Chart : Type where
  columns : List (List State)
deriving DecidableEq, Repr

/-- `Chart(length)`: `length + 1` empty columns. -/
def Chart.init (length : Nat) : Chart :=
  { columns := List.replicate (length + 1) [] }

/-- `chart[idx]`: the column at `idx` (empty when out of range). -/
def Chart.get (c : Chart) (idx : Nat) : List State :=
  (c.columns.get? idx).getD []

/-- `Chart.add`: insert the item into column `idx` if absent; report whether
the column changed. -/
def Chart.add (c : Chart) (idx : Nat) (st : State) : Chart × Bool :=
  if st ∈ c.get idx then (c, false)
  else ({ columns := c.columns.set idx (c.get idx ++ [st]) }, true)

/-- Run `Chart.add` over a list of candidate items at a fixed column,
accumulating the dirty flag (the sequence of `chart.add` calls one
predictor/completer/scanner step performs). -/
def addAll (c : Chart) (idx : Nat) (ch : Bool) : List State → Chart × Bool
  | [] => (c, ch)
  | st :: rest => addAll (c.add idx st).1 idx (ch || (c.add idx st).2) rest

/-- Process one item of column `i` given its symbol after the dot:
completer when `none`, predictor on a nonterminal, scanner on a
terminal. -/
def stepSym (g : Grammar) (tokens : List String) (i : Nat) (c : Chart) (st : State) :
    Option Symbol → Chart × Bool
  | none =>
      addAll c i false
        (((c.get st.start).filter
            (fun prev => decide (prev.next_symbol = some (Symbol.nt st.production.lhs)))).map
          State.advance)
  | some (Symbol.nt sym) =>
      addAll c i false ((g.productions_for sym).map (fun prod => State.mk prod 0 i))
  | some (Symbol.t s) =>
      addAll c (i + 1) false
        (if i < tokens.length ∧ tokens.getD i "" = s then [st.advance] else [])

/-- Process one item of column `i` (the body of the pass over `list(chart[i])`). -/
def stepState (g : Grammar) (tokens : List String) (i : Nat) (c : Chart) (st : State) :
    Chart × Bool :=
  stepSym g tokens i c st st.next_symbol

/-- One full pass over a snapshot of column `i`, threading the chart and the
dirty flag. -/
def passAux (g : Grammar) (tokens : List String) (i : Nat) (c : Chart) (ch : Bool) :
    List State → Chart × Bool
  | [] => (c, ch)
  | st :: rest =>
      passAux g tokens i (stepState g tokens i c st).1
        (ch || (stepState g tokens i c st).2) rest

/-- One iteration of the `while changed` body: a pass over the current
contents of column `i`. -/
def passColumn (g : Grammar) (tokens : List String) (i : Nat) (c : Chart) : Chart × Bool :=
  passAux g tokens i c false (c.get i)

/-- The `while changed` loop on column `i`, with explicit fuel (proved
sufficient below: one further pass after it returns adds nothing). -/
def closeColumn (g : Grammar) (tokens : List String) (i : Nat) : Nat → Chart → Chart
  | 0, c => c
  | fuel + 1, c =>
      if (passColumn g tokens i c).2 then
        closeColumn g tokens i fuel (passColumn g tokens i c).1
      else (passColumn g tokens i c).1

/-- Every production of the grammar table (used for the fuel bound). -/
def allProductions (g : Grammar) : List Production :=
  (g.rules.map (fun e => e.2.map (fun rhs => Production.mk e.1 rhs))).flatten

/-- The longest right-hand side in the grammar table. -/
def maxRhsLen (g : Grammar) : Nat :=
  ((allProductions g).map (fun p => p.rhs.length)).foldr max 0

/-- Fuel for one column's closure loop: one more than a bound on the total
number of chart items. -/
def chartFuel (g : Grammar) (n : Nat) : Nat :=
  (n + 1) * ((allProductions g).length * ((maxRhsLen g + 1) * (n + 1))) + 1

/-- Column 0 seeded with `(prod, 0, 0)` for every start production. -/
def seedChart (g : Grammar) (tokens : List String) : Chart :=
  (addAll (Chart.init tokens.length) 0 false
    ((g.productions_for g.start).map (fun prod => State.mk prod 0 0))).1

/-- The chart after closing columns `0, …, i-1` (the outer
`for i in range(n+1)` loop, stopped after `i` iterations). -/
def chartUpto (g : Grammar) (tokens : List String) (i : Nat) : Chart :=
  (List.range i).foldl
    (fun c j => closeColumn g tokens j (chartFuel g tokens.length) c)
    (seedChart g tokens)

/-- The fully populated chart: all columns `0, …, n` closed. -/
def parseChart (g : Grammar) (tokens : List String) : Chart :=
  chartUpto g tokens (tokens.length + 1)

/-- `EarleyParser`: holds the grammar. -/
structure EarleyParser : Type where
  grammar : Grammar

/-- Whether an item in the final column witnesses acceptance. -/
def accepting (g : Grammar) (st : State) : Bool :=
  decide (st.production.lhs = g.start ∧ st.start = 0 ∧ st.is_complete = true)

/-- `EarleyParser.parse`: populate the chart, then return the number of
complete start items with origin 0 in the final column (the Python
`sum(...)` over the last column). -/
def EarleyParser.parse (p : EarleyParser) (tokens : List String) : Nat :=
  (((parseChart p.grammar tokens).get tokens.length).filter
    (accepting p.grammar)).length

/-- The sample grammar with start symbol `S`. -/
def sampleGrammar : Grammar :=
  { rules := RULES, start := NonTerminal.S }

/-- The driver's parser over the sample grammar. -/
def sampleParser : EarleyParser :=
  { grammar := sampleGrammar }

/-- Total number of items in the chart (the termination measure). -/
def chartSize (c : Chart) : Nat :=
  (c.columns.map List.length).sum

/-- A bound on `chartSize` for any chart arising during a parse of `n`
tokens. -/
def chartBound (g : Grammar) (n : Nat) : Nat :=
  (n + 1) * ((allProductions g).length * ((maxRhsLen g + 1) * (n + 1)))

/-- The chart invariant maintained by the engine: `n + 1` columns, each a
duplicate-free list whose items use grammar productions, keep the dot
inside the right-hand side, and originate no later than their column. -/
def Inv (g : Grammar) (tokens : List String) (c : Chart) : Prop :=
  c.columns.length = tokens.length + 1 ∧
  (∀ j, (c.get j).Nodup) ∧
  (∀ j st, st ∈ c.get j →
    st.production ∈ allProductions g ∧
    st.dot ≤ st.production.rhs.length ∧
    st.start ≤ j)

section ListLemmas

variable {α : Type}

lemma list_get?_set_self : ∀ (l : List α) (i : Nat) (v : α), i < l.length →
    (l.set i v).get? i = some v
  | [], i, v, h => by simp at h
  | a :: as, 0, v, _ => rfl
  | a :: as, i + 1, v, h => by
      simpa using list_get?_set_self as i v (by simpa using h)

lemma list_get?_set_ne : ∀ (l : List α) (i j : Nat) (v : α), i ≠ j →
    (l.set i v).get? j = l.get? j
  | [], _, _, _, _ => by simp
  | a :: as, 0, 0, v, h => absurd rfl h
  | a :: as, 0, j + 1, v, _ => rfl
  | a :: as, i + 1, 0, v, _ => rfl
  | a :: as, i + 1, j + 1, v, h => by
      simpa using list_get?_set_ne as i j v (fun hij => h (by omega))

lemma list_set_oob : ∀ (l : List α) (i : Nat) (v : α), l.length ≤ i → l.set i v = l
  | [], _, _, _ => rfl
  | a :: as, 0, v, h => by simp at h
  | a :: as, i + 1, v, h => by
      simpa using list_set_oob as i v (by simpa using h)

lemma le_foldr_max : ∀ (l : List Nat) (a : Nat), a ∈ l → a ≤ l.foldr max 0
  | [], a, h => by simp at h
  | x :: xs, a, h => by
      rcases List.mem_cons.1 h with h | h
      · subst h; exact Nat.le_max_left _ _
      · exact (le_foldr_max xs a h).trans (Nat.le_max_right _ _)

lemma sum_map_len_set_append : ∀ (l : List (List State)) (i : Nat) (st : State),
    i < l.length →
    ((l.set i (((l.get? i).getD []) ++ [st])).map List.length).sum
      = (l.map List.length).sum + 1
  | [], i, st, h => by simp at h
  | a :: as, 0, st, _ => by simp; omega
  | a :: as, i + 1, st, h => by
      have ih := sum_map_len_set_append as i st (by simpa using h)
      simp only [List.set, List.get?_cons_succ, List.map_cons, List.sum_cons]
      omega

end ListLemmas

section ChartLemmas

lemma chart_init_columns_length (n : Nat) : (Chart.init n).columns.length = n + 1 := by
  simp [Chart.init]

lemma chart_init_get (n j : Nat) : (Chart.init n).get j = [] := by
  unfold Chart.get Chart.init
  cases h : (List.replicate (n + 1) ([] : List State)).get? j with
  | none => simp [h]
  | some y =>
      have hy : y ∈ List.replicate (n + 1) ([] : List State) := List.get?_mem h
      simp [h, List.eq_of_mem_replicate hy]

lemma chart_get_mk (cols : List (List State)) (j : Nat) :
    (Chart.mk cols).get j = (cols.get? j).getD [] := rfl

lemma add_of_mem {c : Chart} {idx : Nat} {st : State} (h : st ∈ c.get idx) :
    c.add idx st = (c, false) := by
  unfold Chart.add; rw [if_pos h]

lemma add_of_not_mem {c : Chart} {idx : Nat} {st : State} (h : st ∉ c.get idx) :
    c.add idx st = (Chart.mk (c.columns.set idx (c.get idx ++ [st])), true) := by
  unfold Chart.add; rw [if_neg h]

lemma add_snd_false_iff (c : Chart) (idx : Nat) (st : State) :
    (c.add idx st).2 = false ↔ st ∈ c.get idx := by
  by_cases h : st ∈ c.get idx
  · rw [add_of_mem h]; simpa using h
  · rw [add_of_not_mem h]; simpa using h

lemma add_fst_of_mem {c : Chart} {idx : Nat} {st : State} (h : st ∈ c.get idx) :
    (c.add idx st).1 = c := by
  rw [add_of_mem h]

lemma add_columns_length (c : Chart) (idx : Nat) (st : State) :
    (c.add idx st).1.columns.length = c.columns.length := by
  by_cases h : st ∈ c.get idx
  · rw [add_of_mem h]
  · rw [add_of_not_mem h]; exact c.columns.length_set idx _

lemma add_get_of_ne (c : Chart) (idx : Nat) (st : State) {j : Nat} (hj : j ≠ idx) :
    (c.add idx st).1.get j = c.get j := by
  by_cases h : st ∈ c.get idx
  · rw [add_of_mem h]
  · rw [add_of_not_mem h, chart_get_mk,
      list_get?_set_ne c.columns idx j _ (Ne.symm hj)]
    rfl

lemma add_get_self_of_not_mem {c : Chart} {idx : Nat} {st : State}
    (h : st ∉ c.get idx) (hidx : idx < c.columns.length) :
    (c.add idx st).1.get idx = c.get idx ++ [st] := by
  rw [add_of_not_mem h, chart_get_mk, list_get?_set_self c.columns idx _ hidx]
  rfl

lemma add_oob {c : Chart} {idx : Nat} {st : State} (hidx : c.columns.length ≤ idx) :
    (c.add idx st).1 = c := by
  by_cases h : st ∈ c.get idx
  · rw [add_of_mem h]
  · rw [add_of_not_mem h, list_set_oob c.columns idx _ hidx]

lemma add_mem_mono {c : Chart} {idx : Nat} {st x : State} {j : Nat}
    (h : x ∈ c.get j) : x ∈ (c.add idx st).1.get j := by
  by_cases hm : st ∈ c.get idx
  · rwa [add_fst_of_mem hm]
  · by_cases hj : j = idx
    · subst hj
      by_cases hidx : j < c.columns.length
      · rw [add_get_self_of_not_mem hm hidx]
        exact List.mem_append_left _ h
      · rwa [add_oob (Nat.le_of_not_lt hidx)]
    · rwa [add_get_of_ne c idx st hj]

lemma add_mem_new {c : Chart} {idx : Nat} {st x : State} {j : Nat}
    (h : x ∈ (c.add idx st).1.get j) : x ∈ c.get j ∨ (j = idx ∧ x = st) := by
  by_cases hm : st ∈ c.get idx
  · rw [add_fst_of_mem hm] at h; exact Or.inl h
  · by_cases hj : j = idx
    · subst hj
      by_cases hidx : j < c.columns.length
      · rw [add_get_self_of_not_mem hm hidx] at h
        rcases List.mem_append.1 h with h | h
        · exact Or.inl h
        · exact Or.inr ⟨rfl, List.mem_singleton.1 h⟩
      · rw [add_oob (Nat.le_of_not_lt hidx)] at h; exact Or.inl h
    · rw [add_get_of_ne c idx st hj] at h; exact Or.inl h

lemma add_self_mem {c : Chart} {idx : Nat} {st : State}
    (hidx : idx < c.columns.length) : st ∈ (c.add idx st).1.get idx := by
  by_cases hm : st ∈ c.get idx
  · rwa [add_fst_of_mem hm]
  · rw [add_get_self_of_not_mem hm hidx]
    exact List.mem_append_right _ (List.mem_singleton.2 rfl)

lemma add_nodup {c : Chart} {idx : Nat} {st : State} {j : Nat}
    (h : (c.get j).Nodup) : ((c.add idx st).1.get j).Nodup := by
  by_cases hm : st ∈ c.get idx
  · rwa [add_fst_of_mem hm]
  · by_cases hj : j = idx
    · subst hj
      by_cases hidx : j < c.columns.length
      · rw [add_get_self_of_not_mem hm hidx]
        simp [List.nodup_append, h, List.disjoint_singleton, hm]
      · rwa [add_oob (Nat.le_of_not_lt hidx)]
    · rwa [add_get_of_ne c idx st hj]

lemma add_size_of_not_mem {c : Chart} {idx : Nat} {st : State}
    (hm : st ∉ c.get idx) (hidx : idx < c.columns.length) :
    chartSize (c.add idx st).1 = chartSize c + 1 := by
  rw [add_of_not_mem hm]
  exact sum_map_len_set_append c.columns idx st hidx

lemma add_size_le (c : Chart) (idx : Nat) (st : State) :
    chartSize c ≤ chartSize (c.add idx st).1 := by
  by_cases hm : st ∈ c.get idx
  · rw [add_fst_of_mem hm]
  · by_cases hidx : idx < c.columns.length
    · rw [add_size_of_not_mem hm hidx]; omega
    · rw [add_oob (Nat.le_of_not_lt hidx)]

lemma add_size_strict {c : Chart} {idx : Nat} {st : State}
    (hidx : idx < c.columns.length) (h : (c.add idx st).2 = true) :
    chartSize c < chartSize (c.add idx st).1 := by
  have hm : st ∉ c.get idx := by
    intro hmem
    rw [(add_snd_false_iff c idx st).2 hmem] at h
    exact Bool.false_ne_true h
  rw [add_size_of_not_mem hm hidx]
  omega

end ChartLemmas

section AddAllLemmas

lemma addAll_nil (c : Chart) (idx : Nat) (ch : Bool) : addAll c idx ch [] = (c, ch) := rfl

lemma addAll_cons (c : Chart) (idx : Nat) (ch : Bool) (st : State) (rest : List State) :
    addAll c idx ch (st :: rest)
      = addAll (c.add idx st).1 idx (ch || (c.add idx st).2) rest := rfl

lemma addAll_snd_false {idx : Nat} : ∀ {l : List State} {c : Chart} {ch : Bool},
    (addAll c idx ch l).2 = false → (addAll c idx ch l).1 = c ∧ ch = false
  | [], c, ch, h => ⟨rfl, h⟩
  | st :: rest, c, ch, h => by
      rw [addAll_cons] at h ⊢
      obtain ⟨h1, h2⟩ := addAll_snd_false h
      rw [Bool.or_eq_false_iff] at h2
      have hmem : st ∈ c.get idx := (add_snd_false_iff c idx st).1 h2.2
      exact ⟨h1.trans (add_fst_of_mem hmem), h2.1⟩

lemma addAll_snd_of_true {idx : Nat} : ∀ {l : List State} {c : Chart},
    (addAll c idx true l).2 = true
  | [], c => rfl
  | st :: rest, c => by
      rw [addAll_cons]
      simpa using addAll_snd_of_true

lemma addAll_mem_mono {idx : Nat} {x : State} {j : Nat} :
    ∀ {l : List State} {c : Chart} {ch : Bool},
    x ∈ c.get j → x ∈ (addAll c idx ch l).1.get j
  | [], c, ch, h => h
  | st :: rest, c, ch, h => by
      rw [addAll_cons]
      exact addAll_mem_mono (add_mem_mono h)

lemma addAll_mem_new {idx : Nat} {x : State} {j : Nat} :
    ∀ {l : List State} {c : Chart} {ch : Bool},
    x ∈ (addAll c idx ch l).1.get j → x ∈ c.get j ∨ (j = idx ∧ x ∈ l)
  | [], c, ch, h => Or.inl h
  | st :: rest, c, ch, h => by
      rw [addAll_cons] at h
      rcases addAll_mem_new h with h1 | ⟨h1, h2⟩
      · rcases add_mem_new h1 with h2 | ⟨h2, h3⟩
        · exact Or.inl h2
        · exact Or.inr ⟨h2, by simp [h3]⟩
      · exact Or.inr ⟨h1, by simp [h2]⟩

lemma addAll_nodup {idx : Nat} : ∀ {l : List State} {c : Chart} {ch : Bool},
    (∀ j, (c.get j).Nodup) → ∀ j, ((addAll c idx ch l).1.get j).Nodup
  | [], c, ch, h => h
  | st :: rest, c, ch, h => by
      rw [addAll_cons]
      exact addAll_nodup (fun j => add_nodup (h j))

lemma addAll_columns_length {idx : Nat} : ∀ {l : List State} {c : Chart} {ch : Bool},
    (addAll c idx ch l).1.columns.length = c.columns.length
  | [], c, ch => rfl
  | st :: rest, c, ch => by
      rw [addAll_cons]
      exact addAll_columns_length.trans (add_columns_length c idx st)

lemma addAll_size_le {idx : Nat} : ∀ {l : List State} {c : Chart} {ch : Bool},
    chartSize c ≤ chartSize (addAll c idx ch l).1
  | [], c, ch => Nat.le_refl _
  | st :: rest, c, ch => by
      rw [addAll_cons]
      exact (add_size_le c idx st).trans addAll_size_le

lemma addAll_size_strict_aux {idx : Nat} : ∀ {l : List State} {c : Chart} {ch : Bool},
    idx < c.columns.length → (addAll c idx ch l).2 = true →
    ch = true ∨ chartSize c < chartSize (addAll c idx ch l).1
  | [], c, ch, _, h => Or.inl h
  | st :: rest, c, ch, hidx, h => by
      rw [addAll_cons] at h ⊢
      cases hb : (c.add idx st).2 with
      | true =>
          refine Or.inr (Nat.lt_of_lt_of_le ?_ addAll_size_le)
          exact add_size_strict hidx hb
      | false =>
          have hmem : st ∈ c.get idx := (add_snd_false_iff c idx st).1 hb
          simp only [add_fst_of_mem hmem, hb, Bool.or_false] at h ⊢
          exact addAll_size_strict_aux hidx h

lemma addAll_size_strict {idx : Nat} {l : List State} {c : Chart}
    (hidx : idx < c.columns.length) (h : (addAll c idx false l).2 = true) :
    chartSize c < chartSize (addAll c idx false l).1 := by
  rcases addAll_size_strict_aux hidx h with h1 | h1
  · simp at h1
  · exact h1

end AddAllLemmas

section StateLemmas

lemma is_complete_iff (st : State) :
    st.is_complete = true ↔ st.production.rhs.length ≤ st.dot := by
  simp [State.is_complete]

lemma next_symbol_of_complete {st : State} (h : st.is_complete = true) :
    st.next_symbol = none := by
  simp [State.next_symbol, h]

lemma dot_lt_of_next_symbol_some {st : State} {y : Symbol}
    (h : st.next_symbol = some y) : st.dot < st.production.rhs.length := by
  unfold State.next_symbol at h
  by_cases hc : st.is_complete = true
  · simp [hc] at h
  · have := (not_iff_not.2 (is_complete_iff st)).1 hc
    omega

lemma next_symbol_none_iff {st : State} :
    st.next_symbol = none ↔ st.production.rhs.length ≤ st.dot := by
  constructor
  · intro h
    by_contra hlt
    have hc : st.is_complete ≠ true := by
      simpa [is_complete_iff] using hlt
    unfold State.next_symbol at h
    rw [if_neg hc] at h
    rw [List.get?_eq_none] at h
    omega
  · intro h
    exact next_symbol_of_complete ((is_complete_iff st).2 h)

lemma advance_production (st : State) : st.advance.production = st.production := rfl

lemma advance_dot (st : State) : st.advance.dot = st.dot + 1 := rfl

lemma advance_start (st : State) : st.advance.start = st.start := rfl

end StateLemmas

section GrammarLemmas

lemma mem_of_lookup_eq_some {α β : Type} [DecidableEq α] {a : α} {b : β} :
    ∀ {l : List (α × β)}, l.lookup a = some b → (a, b) ∈ l
  | [], h => by simp [List.lookup] at h
  | (k, v) :: es, h => by
      by_cases hk : a = k
      · subst hk
        simp only [List.lookup, beq_self_eq_true] at h
        have : v = b := by simpa using h
        simp [this]
      · have hk' : (a == k) = false := by simpa using hk
        simp only [List.lookup, hk'] at h
        exact List.mem_cons_of_mem _ (mem_of_lookup_eq_some h)

lemma lookup_eq_some_of_keys_nodup {α β : Type} [DecidableEq α] {a : α} {b : β} :
    ∀ {l : List (α × β)}, (l.map Prod.fst).Nodup → (a, b) ∈ l → l.lookup a = some b
  | [], _, h => by simp at h
  | (k, v) :: es, hnd, h => by
      rcases List.mem_cons.1 h with h1 | h1
      · injection h1 with hak hbv
        subst hak
        subst hbv
        simp [List.lookup]
      · have hka : a ≠ k := by
          intro hk
          subst hk
          have hmem : a ∈ es.map Prod.fst := List.mem_map_of_mem Prod.fst h1
          simp only [List.map_cons, List.nodup_cons] at hnd
          exact hnd.1 hmem
        have hk' : (a == k) = false := by simpa using hka
        simp only [List.lookup, hk']
        have hnd' : (es.map Prod.fst).Nodup := by
          simp only [List.map_cons, List.nodup_cons] at hnd
          exact hnd.2
        exact lookup_eq_some_of_keys_nodup hnd' h1

lemma productions_for_mem_allProductions {g : Grammar} {nt : NonTerminal} {p : Production}
    (h : p ∈ g.productions_for nt) : p ∈ allProductions g := by
  unfold Grammar.productions_for at h
  cases hl : g.rules.lookup nt with
  | none => rw [hl] at h; simp at h
  | some alts =>
      rw [hl] at h
      have hmem : (nt, alts) ∈ g.rules := mem_of_lookup_eq_some hl
      unfold allProductions
      rw [List.mem_flatten]
      refine ⟨alts.map (fun rhs => Production.mk nt rhs), ?_, ?_⟩
      · exact List.mem_map_of_mem _ hmem
      · simpa using h

lemma allProductions_split {g : Grammar} {p : Production}
    (h : p ∈ allProductions g) :
    ∃ alts, (p.lhs, alts) ∈ g.rules ∧ p.rhs ∈ alts := by
  unfold allProductions at h
  rw [List.mem_flatten] at h
  obtain ⟨l, hl, hp⟩ := h
  rw [List.mem_map] at hl
  obtain ⟨e, he, rfl⟩ := hl
  rw [List.mem_map] at hp
  obtain ⟨rhs, hr, rfl⟩ := hp
  exact ⟨e.2, by simpa using he, hr⟩

lemma mem_productions_for_of_allProductions {g : Grammar} {p : Production}
    (hnd : (g.rules.map Prod.fst).Nodup) (h : p ∈ allProductions g) :
    p ∈ g.productions_for p.lhs := by
  obtain ⟨alts, hmem, hrhs⟩ := allProductions_split h
  unfold Grammar.productions_for
  rw [lookup_eq_some_of_keys_nodup hnd hmem]
  simpa using ⟨p.rhs, hrhs, rfl⟩

lemma maxRhsLen_ge {g : Grammar} {p : Production} (h : p ∈ allProductions g) :
    p.rhs.length ≤ maxRhsLen g := by
  exact le_foldr_max _ _ (List.mem_map_of_mem _ h)

end GrammarLemmas

section StepLemmas

lemma stepState_none {g : Grammar} {tokens : List String} {i : Nat} {c : Chart} {st : State}
    (h : st.next_symbol = none) :
    stepState g tokens i c st
      = addAll c i false
          (((c.get st.start).filter
              (fun prev => decide (prev.next_symbol = some (Symbol.nt st.production.lhs)))).map
            State.advance) := by
  unfold stepState
  rw [h]
  rfl

lemma stepState_nt {g : Grammar} {tokens : List String} {i : Nat} {c : Chart} {st : State}
    {x : NonTerminal} (h : st.next_symbol = some (Symbol.nt x)) :
    stepState g tokens i c st
      = addAll c i false ((g.productions_for x).map (fun prod => State.mk prod 0 i)) := by
  unfold stepState
  rw [h]
  rfl

lemma stepState_t {g : Grammar} {tokens : List String} {i : Nat} {c : Chart} {st : State}
    {s : String} (h : st.next_symbol = some (Symbol.t s)) :
    stepState g tokens i c st
      = addAll c (i + 1) false
          (if i < tokens.length ∧ tokens.getD i "" = s then [st.advance] else []) := by
  unfold stepState
  rw [h]
  rfl

lemma stepState_eq_addAll (g : Grammar) (tokens : List String) (i : Nat) (c : Chart)
    (st : State) : ∃ idx l, stepState g tokens i c st = addAll c idx false l := by
  cases hsym : st.next_symbol with
  | none => exact ⟨i, _, stepState_none hsym⟩
  | some s =>
      cases s with
      | nt x => exact ⟨i, _, stepState_nt hsym⟩
      | t s => exact ⟨i + 1, _, stepState_t hsym⟩

lemma stepState_snd_false {g : Grammar} {tokens : List String} {i : Nat} {c : Chart}
    {st : State} (h : (stepState g tokens i c st).2 = false) :
    (stepState g tokens i c st).1 = c := by
  obtain ⟨idx, l, he⟩ := stepState_eq_addAll g tokens i c st
  rw [he] at h ⊢
  exact (addAll_snd_false h).1

lemma stepState_mem_mono {g : Grammar} {tokens : List String} {i : Nat} {c : Chart}
    {st x : State} {j : Nat} (h : x ∈ c.get j) :
    x ∈ (stepState g tokens i c st).1.get j := by
  obtain ⟨idx, l, he⟩ := stepState_eq_addAll g tokens i c st
  rw [he]
  exact addAll_mem_mono h

lemma stepState_columns_length (g : Grammar) (tokens : List String) (i : Nat) (c : Chart)
    (st : State) : (stepState g tokens i c st).1.columns.length = c.columns.length := by
  obtain ⟨idx, l, he⟩ := stepState_eq_addAll g tokens i c st
  rw [he]
  exact addAll_columns_length

lemma stepState_size_le (g : Grammar) (tokens : List String) (i : Nat) (c : Chart)
    (st : State) : chartSize c ≤ chartSize (stepState g tokens i c st).1 := by
  obtain ⟨idx, l, he⟩ := stepState_eq_addAll g tokens i c st
  rw [he]
  exact addAll_size_le

lemma stepState_size_strict {g : Grammar} {tokens : List String} {i : Nat} {c : Chart}
    {st : State} (hlen : c.columns.length = tokens.length + 1) (hi : i ≤ tokens.length)
    (h : (stepState g tokens i c st).2 = true) :
    chartSize c < chartSize (stepState g tokens i c st).1 := by
  cases hsym : st.next_symbol with
  | none =>
      rw [stepState_none hsym] at h ⊢
      exact addAll_size_strict (by omega) h
  | some s =>
      cases s with
      | nt x =>
          rw [stepState_nt hsym] at h ⊢
          exact addAll_size_strict (by omega) h
      | t s =>
          rw [stepState_t hsym] at h ⊢
          by_cases hcond : i < tokens.length ∧ tokens.getD i "" = s
          · rw [if_pos hcond] at h ⊢
            exact addAll_size_strict (by omega) h
          · rw [if_neg hcond] at h
            rw [addAll_nil] at h
            exact absurd h (by simp)

lemma stepState_inv {g : Grammar} {tokens : List String} {i : Nat} {c : Chart} {st : State}
    (hInv : Inv g tokens c) (hi : i ≤ tokens.length)
    (hp : st.production ∈ allProductions g) (hs : st.start ≤ i) :
    Inv g tokens (stepState g tokens i c st).1 := by
  obtain ⟨hlen, hnd, hmem⟩ := hInv
  cases hsym : st.next_symbol with
  | none =>
      rw [stepState_none hsym]
      refine ⟨addAll_columns_length.trans hlen, addAll_nodup hnd, ?_⟩
      intro j x hx
      rcases addAll_mem_new hx with hx2 | ⟨rfl, hx2⟩
      · exact hmem j x hx2
      · rw [List.mem_map] at hx2
        obtain ⟨prev, hprev, rfl⟩ := hx2
        rw [List.mem_filter] at hprev
        obtain ⟨hprev_mem, hprev_pred⟩ := hprev
        have hpred : prev.next_symbol = some (Symbol.nt st.production.lhs) :=
          of_decide_eq_true hprev_pred
        obtain ⟨hp', hd', hs'⟩ := hmem st.start prev hprev_mem
        have hlt : prev.dot < prev.production.rhs.length := dot_lt_of_next_symbol_some hpred
        refine ⟨hp', ?_, ?_⟩
        · rw [advance_dot, advance_production]; omega
        · rw [advance_start]; omega
  | some s =>
      cases s with
      | nt y =>
          rw [stepState_nt hsym]
          refine ⟨addAll_columns_length.trans hlen, addAll_nodup hnd, ?_⟩
          intro j x hx
          rcases addAll_mem_new hx with hx2 | ⟨rfl, hx2⟩
          · exact hmem j x hx2
          · rw [List.mem_map] at hx2
            obtain ⟨prod, hprod, rfl⟩ := hx2
            exact ⟨productions_for_mem_allProductions hprod, Nat.zero_le _, Nat.le_refl _⟩
      | t s =>
          rw [stepState_t hsym]
          refine ⟨addAll_columns_length.trans hlen, addAll_nodup hnd, ?_⟩
          intro j x hx
          rcases addAll_mem_new hx with hx2 | ⟨rfl, hx2⟩
          · exact hmem j x hx2
          · by_cases hcond : i < tokens.length ∧ tokens.getD i "" = s
            · rw [if_pos hcond, List.mem_singleton] at hx2
              subst hx2
              have hlt : st.dot < st.production.rhs.length := dot_lt_of_next_symbol_some hsym
              refine ⟨hp, ?_, ?_⟩
              · rw [advance_dot, advance_production]; omega
              · rw [advance_start]; omega
            · rw [if_neg hcond] at hx2
              simp at hx2

lemma stepState_weak {g : Grammar} {tokens : List String} {i : Nat} {c : Chart} {st : State}
    (hmem : ∀ j x, x ∈ c.get j → x.dot ≤ x.production.rhs.length ∧ x.start ≤ j)
    (hd : st.dot ≤ st.production.rhs.length) (hs : st.start ≤ i) :
    ∀ j x, x ∈ (stepState g tokens i c st).1.get j →
      x.dot ≤ x.production.rhs.length ∧ x.start ≤ j := by
  cases hsym : st.next_symbol with
  | none =>
      rw [stepState_none hsym]
      intro j x hx
      rcases addAll_mem_new hx with hx2 | ⟨rfl, hx2⟩
      · exact hmem j x hx2
      · rw [List.mem_map] at hx2
        obtain ⟨prev, hprev, rfl⟩ := hx2
        rw [List.mem_filter] at hprev
        obtain ⟨hprev_mem, hprev_pred⟩ := hprev
        have hpred : prev.next_symbol = some (Symbol.nt st.production.lhs) :=
          of_decide_eq_true hprev_pred
        obtain ⟨hd', hs'⟩ := hmem st.start prev hprev_mem
        have hlt : prev.dot < prev.production.rhs.length := dot_lt_of_next_symbol_some hpred
        constructor
        · rw [advance_dot, advance_production]; omega
        · rw [advance_start]; omega
  | some s =>
      cases s with
      | nt y =>
          rw [stepState_nt hsym]
          intro j x hx
          rcases addAll_mem_new hx with hx2 | ⟨rfl, hx2⟩
          · exact hmem j x hx2
          · rw [List.mem_map] at hx2
            obtain ⟨prod, hprod, rfl⟩ := hx2
            exact ⟨Nat.zero_le _, Nat.le_refl _⟩
      | t s =>
          rw [stepState_t hsym]
          intro j x hx
          rcases addAll_mem_new hx with hx2 | ⟨rfl, hx2⟩
          · exact hmem j x hx2
          · by_cases hcond : i < tokens.length ∧ tokens.getD i "" = s
            · rw [if_pos hcond, List.mem_singleton] at hx2
              subst hx2
              have hlt : st.dot < st.production.rhs.length := dot_lt_of_next_symbol_some hsym
              constructor
              · rw [advance_dot, advance_production]; omega
              · rw [advance_start]; omega
            · rw [if_neg hcond] at hx2
              simp at hx2

end StepLemmas

section PassLemmas

lemma passAux_nil (g : Grammar) (tokens : List String) (i : Nat) (c : Chart) (ch : Bool) :
    passAux g tokens i c ch [] = (c, ch) := rfl

lemma passAux_cons (g : Grammar) (tokens : List String) (i : Nat) (c : Chart) (ch : Bool)
    (st : State) (rest : List State) :
    passAux g tokens i c ch (st :: rest)
      = passAux g tokens i (stepState g tokens i c st).1
          (ch || (stepState g tokens i c st).2) rest := rfl

lemma passAux_snd_false {g : Grammar} {tokens : List String} {i : Nat} :
    ∀ {l : List State} {c : Chart} {ch : Bool},
    (passAux g tokens i c ch l).2 = false → (passAux g tokens i c ch l).1 = c ∧ ch = false
  | [], c, ch, h => ⟨rfl, h⟩
  | st :: rest, c, ch, h => by
      rw [passAux_cons] at h ⊢
      obtain ⟨h1, h2⟩ := passAux_snd_false h
      rw [Bool.or_eq_false_iff] at h2
      exact ⟨h1.trans (stepState_snd_false h2.2), h2.1⟩

lemma passAux_columns_length {g : Grammar} {tokens : List String} {i : Nat} :
    ∀ {l : List State} {c : Chart} {ch : Bool},
    (passAux g tokens i c ch l).1.columns.length = c.columns.length
  | [], c, ch => rfl
  | st :: rest, c, ch => by
      rw [passAux_cons]
      exact passAux_columns_length.trans (stepState_columns_length g tokens i c st)

lemma passAux_size_le {g : Grammar} {tokens : List String} {i : Nat} :
    ∀ {l : List State} {c : Chart} {ch : Bool},
    chartSize c ≤ chartSize (passAux g tokens i c ch l).1
  | [], c, ch => Nat.le_refl _
  | st :: rest, c, ch => by
      rw [passAux_cons]
      exact (stepState_size_le g tokens i c st).trans passAux_size_le

lemma passAux_size_strict_aux {g : Grammar} {tokens : List String} {i : Nat}
    (hi : i ≤ tokens.length) : ∀ {l : List State} {c : Chart} {ch : Bool},
    c.columns.length = tokens.length + 1 → (passAux g tokens i c ch l).2 = true →
    ch = true ∨ chartSize c < chartSize (passAux g tokens i c ch l).1
  | [], c, ch, _, h => Or.inl h
  | st :: rest, c, ch, hlen, h => by
      rw [passAux_cons] at h ⊢
      cases hb : (stepState g tokens i c st).2 with
      | true =>
          refine Or.inr (Nat.lt_of_lt_of_le ?_ passAux_size_le)
          exact stepState_size_strict hlen hi hb
      | false =>
          simp only [stepState_snd_false hb, hb, Bool.or_false] at h ⊢
          exact passAux_size_strict_aux hi hlen h

lemma passAux_inv {g : Grammar} {tokens : List String} {i : Nat} (hi : i ≤ tokens.length) :
    ∀ {l : List State} {c : Chart} {ch : Bool},
    Inv g tokens c →
    (∀ st ∈ l, st.production ∈ allProductions g ∧ st.start ≤ i) →
    Inv g tokens (passAux g tokens i c ch l).1
  | [], c, ch, hInv, _ => hInv
  | st :: rest, c, ch, hInv, hl => by
      rw [passAux_cons]
      refine passAux_inv hi ?_ ?_
      · exact stepState_inv hInv hi (hl st (List.mem_cons_self st rest)).1
          (hl st (List.mem_cons_self st rest)).2
      · exact fun st' hst' => hl st' (List.mem_cons_of_mem st hst')

lemma passColumn_snd_false {g : Grammar} {tokens : List String} {i : Nat} {c : Chart}
    (h : (passColumn g tokens i c).2 = false) : (passColumn g tokens i c).1 = c :=
  (passAux_snd_false h).1

lemma passColumn_columns_length (g : Grammar) (tokens : List String) (i : Nat) (c : Chart) :
    (passColumn g tokens i c).1.columns.length = c.columns.length :=
  passAux_columns_length

lemma passColumn_size_strict {g : Grammar} {tokens : List String} {i : Nat} {c : Chart}
    (hlen : c.columns.length = tokens.length + 1) (hi : i ≤ tokens.length)
    (h : (passColumn g tokens i c).2 = true) :
    chartSize c < chartSize (passColumn g tokens i c).1 := by
  rcases passAux_size_strict_aux hi hlen h with h1 | h1
  · exact absurd h1 (by simp)
  · exact h1

lemma passColumn_inv {g : Grammar} {tokens : List String} {i : Nat} {c : Chart}
    (hInv : Inv g tokens c) (hi : i ≤ tokens.length) :
    Inv g tokens (passColumn g tokens i c).1 := by
  refine passAux_inv hi hInv ?_
  intro st hst
  obtain ⟨hp, _, hs⟩ := hInv.2.2 i st hst
  exact ⟨hp, hs⟩

end PassLemmas

section BoundLemmas

/-- The finite universe of items possible during a parse of `n` tokens. -/
def stateUniv (g : Grammar) (n : Nat) : Finset State :=
  ((allProductions g).toFinset ×ˢ (Finset.range (maxRhsLen g + 1) ×ˢ Finset.range (n + 1))).image
    (fun x => State.mk x.1 x.2.1 x.2.2)

lemma mem_stateUniv {g : Grammar} {n : Nat} {st : State}
    (h1 : st.production ∈ allProductions g) (h2 : st.dot ≤ maxRhsLen g)
    (h3 : st.start ≤ n) : st ∈ stateUniv g n := by
  refine Finset.mem_image.2 ⟨(st.production, st.dot, st.start), ?_, rfl⟩
  rw [Finset.mem_product, Finset.mem_product]
  refine ⟨List.mem_toFinset.2 h1, ?_, ?_⟩
  · show st.dot ∈ Finset.range (maxRhsLen g + 1)
    exact Finset.mem_range.2 (by omega)
  · show st.start ∈ Finset.range (n + 1)
    exact Finset.mem_range.2 (by omega)

lemma stateUniv_card_le (g : Grammar) (n : Nat) :
    (stateUniv g n).card ≤ (allProductions g).length * ((maxRhsLen g + 1) * (n + 1)) := by
  refine Finset.card_image_le.trans ?_
  rw [Finset.card_product, Finset.card_product, Finset.card_range, Finset.card_range]
  exact Nat.mul_le_mul_right _ (allProductions g).toFinset_card_le

lemma column_length_le {g : Grammar} {tokens : List String} {c : Chart}
    (hInv : Inv g tokens c) (j : Nat) :
    (c.get j).length ≤ (allProductions g).length * ((maxRhsLen g + 1) * (tokens.length + 1)) := by
  obtain ⟨hlen, hnd, hmem⟩ := hInv
  by_cases hj : j < c.columns.length
  · have hsub : (c.get j).toFinset ⊆ stateUniv g tokens.length := by
      intro x hx
      rw [List.mem_toFinset] at hx
      obtain ⟨hp, hd, hs⟩ := hmem j x hx
      exact mem_stateUniv hp (hd.trans (maxRhsLen_ge hp)) (by omega)
    calc (c.get j).length = (c.get j).toFinset.card :=
          (List.toFinset_card_of_nodup (hnd j)).symm
      _ ≤ (stateUniv g tokens.length).card := Finset.card_le_card hsub
      _ ≤ _ := stateUniv_card_le g tokens.length
  · have : (c.columns.get? j) = none := by
      rw [List.get?_eq_none]
      omega
    unfold Chart.get
    rw [this]
    simp

lemma chartSize_le_bound {g : Grammar} {tokens : List String} {c : Chart}
    (hInv : Inv g tokens c) : chartSize c ≤ chartBound g tokens.length := by
  unfold chartSize chartBound
  have hcols : ∀ x ∈ c.columns.map List.length,
      x ≤ (allProductions g).length * ((maxRhsLen g + 1) * (tokens.length + 1)) := by
    intro x hx
    rw [List.mem_map] at hx
    obtain ⟨col, hcol, rfl⟩ := hx
    obtain ⟨j, hj⟩ := List.mem_iff_get?.1 hcol
    have hget : c.get j = col := by
      unfold Chart.get
      rw [hj]
      rfl
    rw [← hget]
    exact column_length_le hInv j
  calc (c.columns.map List.length).sum
      ≤ (c.columns.map List.length).length •
          ((allProductions g).length * ((maxRhsLen g + 1) * (tokens.length + 1))) :=
        List.sum_le_card_nsmul _ _ hcols
    _ = c.columns.length * ((allProductions g).length * ((maxRhsLen g + 1) * (tokens.length + 1))) := by
        rw [List.length_map, smul_eq_mul]
    _ = (tokens.length + 1) * ((allProductions g).length * ((maxRhsLen g + 1) * (tokens.length + 1))) := by
        rw [hInv.1]

end BoundLemmas

section CloseLemmas

lemma closeColumn_zero (g : Grammar) (tokens : List String) (i : Nat) (c : Chart) :
    closeColumn g tokens i 0 c = c := rfl

lemma closeColumn_succ (g : Grammar) (tokens : List String) (i : Nat) (fuel : Nat)
    (c : Chart) :
    closeColumn g tokens i (fuel + 1) c
      = if (passColumn g tokens i c).2 then
          closeColumn g tokens i fuel (passColumn g tokens i c).1
        else (passColumn g tokens i c).1 := rfl

lemma closeColumn_inv {g : Grammar} {tokens : List String} {i : Nat}
    (hi : i ≤ tokens.length) : ∀ {fuel : Nat} {c : Chart},
    Inv g tokens c → Inv g tokens (closeColumn g tokens i fuel c)
  | 0, c, hInv => hInv
  | fuel + 1, c, hInv => by
      rw [closeColumn_succ]
      by_cases hb : (passColumn g tokens i c).2 = true
      · rw [if_pos hb]
        exact closeColumn_inv hi (passColumn_inv hInv hi)
      · rw [if_neg hb]
        exact passColumn_inv hInv hi

lemma closeColumn_fix {g : Grammar} {tokens : List String} {i : Nat}
    (hi : i ≤ tokens.length) : ∀ {fuel : Nat} {c : Chart},
    Inv g tokens c → chartBound g tokens.length + 1 ≤ fuel + chartSize c →
    (passColumn g tokens i (closeColumn g tokens i fuel c)).2 = false
  | 0, c, hInv, hfuel => by
      have := chartSize_le_bound hInv
      omega
  | fuel + 1, c, hInv, hfuel => by
      rw [closeColumn_succ]
      by_cases hb : (passColumn g tokens i c).2 = true
      · rw [if_pos hb]
        have hstrict : chartSize c < chartSize (passColumn g tokens i c).1 :=
          passColumn_size_strict hInv.1 hi hb
        exact closeColumn_fix hi (passColumn_inv hInv hi) (by omega)
      · rw [if_neg hb]
        rw [passColumn_snd_false (Bool.of_not_eq_true hb)]
        exact Bool.of_not_eq_true hb

end CloseLemmas

section ChartUptoLemmas

lemma seedChart_inv (g : Grammar) (tokens : List String) :
    Inv g tokens (seedChart g tokens) := by
  unfold seedChart
  refine ⟨addAll_columns_length.trans (chart_init_columns_length tokens.length), ?_, ?_⟩
  · exact addAll_nodup (fun j => by rw [chart_init_get]; exact List.nodup_nil)
  · intro j x hx
    rcases addAll_mem_new hx with hx2 | ⟨rfl, hx2⟩
    · rw [chart_init_get] at hx2
      simp at hx2
    · rw [List.mem_map] at hx2
      obtain ⟨prod, hprod, rfl⟩ := hx2
      exact ⟨productions_for_mem_allProductions hprod, Nat.zero_le _, Nat.le_refl _⟩

lemma chartUpto_zero (g : Grammar) (tokens : List String) :
    chartUpto g tokens 0 = seedChart g tokens := rfl

lemma chartUpto_succ (g : Grammar) (tokens : List String) (i : Nat) :
    chartUpto g tokens (i + 1)
      = closeColumn g tokens i (chartFuel g tokens.length) (chartUpto g tokens i) := by
  unfold chartUpto
  rw [List.range_succ, List.foldl_append]
  rfl

lemma chartUpto_inv {g : Grammar} {tokens : List String} :
    ∀ {i : Nat}, i ≤ tokens.length + 1 → Inv g tokens (chartUpto g tokens i)
  | 0, _ => seedChart_inv g tokens
  | i + 1, hi => by
      rw [chartUpto_succ]
      exact closeColumn_inv (by omega) (chartUpto_inv (by omega))

lemma parseChart_inv (g : Grammar) (tokens : List String) :
    Inv g tokens (parseChart g tokens) :=
  chartUpto_inv (Nat.le_refl _)

end ChartUptoLemmas

section AcceptLemmas

lemma accepting_iff (g : Grammar) (st : State) :
    accepting g st = true ↔
      st.production.lhs = g.start ∧ st.start = 0 ∧ st.is_complete = true := by
  simp [accepting]

/-- `parse` restricted to the count over the final column, bounded by the
number of start alternatives (the deduplicated column admits only one
accepting item per start production). -/
lemma parse_le_start_alts (g : Grammar) (tokens : List String)
    (hnd : (g.rules.map Prod.fst).Nodup) :
    (EarleyParser.mk g).parse tokens ≤ (g.productions_for g.start).length := by
  show (((parseChart g tokens).get tokens.length).filter (accepting g)).length
      ≤ (g.productions_for g.start).length
  obtain ⟨hlen, hndc, hmem⟩ := parseChart_inv g tokens
  set col := (parseChart g tokens).get tokens.length with hcol
  have hfil_nodup : (col.filter (accepting g)).Nodup := (hndc tokens.length).filter _
  have hinj : ∀ x ∈ col.filter (accepting g), ∀ y ∈ col.filter (accepting g),
      x.production = y.production → x = y := by
    intro x hx y hy hpq
    rw [List.mem_filter] at hx hy
    have hxa := (accepting_iff g x).1 hx.2
    have hya := (accepting_iff g y).1 hy.2
    have hxmem := hmem tokens.length x hx.1
    have hymem := hmem tokens.length y hy.1
    have hxc := (is_complete_iff x).1 hxa.2.2
    have hyc := (is_complete_iff y).1 hya.2.2
    cases x with
    | mk xp xd xs =>
        cases y with
        | mk yp yd ys =>
            cases hpq
            have hd : xd = yd := by
              have h1 : xd ≤ xp.rhs.length := hxmem.2.1
              have h2 : yd ≤ xp.rhs.length := hymem.2.1
              simp only at hxc hyc
              omega
            have hs : xs = ys := by
              have h1 : xs = 0 := hxa.2.1
              have h2 : ys = 0 := hya.2.1
              omega
            rw [hd, hs]
  have hmap_nodup : ((col.filter (accepting g)).map State.production).Nodup :=
    List.Nodup.map_on hinj hfil_nodup
  have hsub : ∀ q ∈ (col.filter (accepting g)).map State.production,
      q ∈ g.productions_for g.start := by
    intro q hq
    rw [List.mem_map] at hq
    obtain ⟨x, hx, rfl⟩ := hq
    rw [List.mem_filter] at hx
    have hxa := (accepting_iff g x).1 hx.2
    have hxp := (hmem tokens.length x hx.1).1
    have hfor := mem_productions_for_of_allProductions hnd hxp
    rwa [hxa.1] at hfor
  calc (col.filter (accepting g)).length
      = ((col.filter (accepting g)).map State.production).length :=
        (List.length_map _ _).symm
    _ = ((col.filter (accepting g)).map State.production).toFinset.card :=
        (List.toFinset_card_of_nodup hmap_nodup).symm
    _ ≤ (g.productions_for g.start).toFinset.card := by
        refine Finset.card_le_card ?_
        intro a ha
        rw [List.mem_toFinset] at ha ⊢
        exact hsub a ha
    _ ≤ (g.productions_for g.start).length := List.toFinset_card_le _

end AcceptLemmas

/-- The start production `S → NP VP` of the sample grammar. -/
def sProd : Production :=
  Production.mk NonTerminal.S [Symbol.nt NonTerminal.NP, Symbol.nt NonTerminal.VP]

/-! ## Claim theorems -/

set_option maxRecDepth 100000 in
/-- C1 (counterexample): the claim expects `["fish","they","can"]` to be
rejected, but the engine accepts it (it is derivable: S → NP VP with
NP → N → "fish" and VP → V VP → "they" "can"), returning the nonzero
count 1. -/
theorem c1_counterexample :
    ¬ (EarleyParser.parse sampleParser ["fish", "they", "can"] = 0) := by
  decide

set_option maxRecDepth 100000 in
/-- C1 (amended): with the sample grammar, `parse` accepts
`["they","can","fish","in","rivers","in","December"]`,
`["they","can","fish"]`, and also `["fish","they","can"]` (derivable via
S → NP VP, NP → N → "fish", VP → V VP → "they" "can"), and rejects `[]`
and `["zzz"]`. -/
theorem c1_acceptance :
    EarleyParser.parse sampleParser ["they", "can", "fish", "in", "rivers", "in", "December"] ≠ 0 ∧
    EarleyParser.parse sampleParser ["they", "can", "fish"] ≠ 0 ∧
    EarleyParser.parse sampleParser ["fish", "they", "can"] ≠ 0 ∧
    EarleyParser.parse sampleParser [] = 0 ∧
    EarleyParser.parse sampleParser ["zzz"] = 0 := by
  refine ⟨?_, ?_, ?_, ?_, ?_⟩ <;> decide

/-- C2: `parse` returns exactly the count of final-column items that are
complete start items with origin 0, and is nonzero iff at least one such
item is present after all columns are closed. -/
theorem c2_accept_count (p : EarleyParser) (tokens : List String) :
    p.parse tokens
      = (((parseChart p.grammar tokens).get tokens.length).filter
          (accepting p.grammar)).length ∧
    (p.parse tokens ≠ 0 ↔
      ∃ st ∈ (parseChart p.grammar tokens).get tokens.length,
        st.production.lhs = p.grammar.start ∧ st.start = 0 ∧ st.is_complete = true) := by
  refine ⟨rfl, ?_⟩
  show (((parseChart p.grammar tokens).get tokens.length).filter
      (accepting p.grammar)).length ≠ 0 ↔ _
  rw [← Nat.pos_iff_ne_zero, List.length_pos_iff_exists_mem]
  constructor
  · rintro ⟨a, ha⟩
    rw [List.mem_filter] at ha
    exact ⟨a, ha.1, (accepting_iff p.grammar a).1 ha.2⟩
  · rintro ⟨a, ha, hprop⟩
    exact ⟨a, List.mem_filter.2 ⟨ha, (accepting_iff p.grammar a).2 hprop⟩⟩

/-- C2 witness at a concrete instance. -/
theorem c2_witness :
    EarleyParser.parse sampleParser []
      = (((parseChart sampleParser.grammar []).get 0).filter
          (accepting sampleParser.grammar)).length :=
  (c2_accept_count sampleParser []).1

set_option maxRecDepth 100000 in
/-- C3 (counterexample): the ambiguous sentence does NOT yield more than one
accepting item: the final column is deduplicated and the sample grammar's
start symbol has a single alternative, so the count is exactly 1. -/
theorem c3_counterexample :
    ¬ (1 < EarleyParser.parse sampleParser
          ["they", "can", "fish", "in", "rivers", "in", "December"]) := by
  decide

set_option maxRecDepth 100000 in
/-- C3 (amended): the ambiguous sentence "they can fish in rivers in
December" is accepted, but the deduplicated final column contains exactly
one accepting item (the only possible one: S → NP VP, dot at the end,
origin 0), so the engine returns the count 1, not a value greater than 1. -/
theorem c3_ambiguous_count :
    EarleyParser.parse sampleParser
      ["they", "can", "fish", "in", "rivers", "in", "December"] = 1 := by
  decide

/-- C4: for every grammar, token sequence and column index `i ≤ n`, the
per-column `while changed` loop terminates: after the closure of column
`i` in the actual parse, one further full pass adds no new item. -/
theorem c4_closure_terminates (g : Grammar) (tokens : List String) (i : Nat)
    (hi : i ≤ tokens.length) :
    (passColumn g tokens i
      (closeColumn g tokens i (chartFuel g tokens.length) (chartUpto g tokens i))).2
      = false := by
  have hInv : Inv g tokens (chartUpto g tokens i) := chartUpto_inv (by omega)
  have hfuel : chartFuel g tokens.length = chartBound g tokens.length + 1 := rfl
  exact closeColumn_fix hi hInv (by omega)

/-- C4 witness at a concrete instance. -/
theorem c4_witness :
    (0 : Nat) ≤ ([] : List String).length ∧
    (passColumn sampleGrammar [] 0
      (closeColumn sampleGrammar [] 0 (chartFuel sampleGrammar ([] : List String).length)
        (chartUpto sampleGrammar [] 0))).2 = false :=
  ⟨by decide, c4_closure_terminates sampleGrammar [] 0 (by decide)⟩

/-- C5: `Chart.add` inserts the item iff absent, returns true iff the column
changed, is a no-op returning false on an already-present item, and never
creates a duplicate. -/
theorem c5_add_contract (c : Chart) (idx : Nat) (st : State)
    (hidx : idx < c.columns.length) :
    ((c.add idx st).2 = true ↔ st ∉ c.get idx) ∧
    ((c.add idx st).2 = false → (c.add idx st).1 = c) ∧
    st ∈ (c.add idx st).1.get idx ∧
    (∀ j, (c.get j).Nodup → ((c.add idx st).1.get j).Nodup) ∧
    ((c.add idx st).2 = true ↔ (c.add idx st).1 ≠ c) := by
  refine ⟨?_, ?_, add_self_mem hidx, fun j h => add_nodup h, ?_⟩
  · constructor
    · intro h hmem
      rw [add_of_mem hmem] at h
      simp at h
    · intro hmem
      rw [add_of_not_mem hmem]
  · intro h
    exact add_fst_of_mem ((add_snd_false_iff c idx st).1 h)
  · constructor
    · intro h heq
      have hlt := add_size_strict hidx h
      rw [heq] at hlt
      exact Nat.lt_irrefl _ hlt
    · intro hne
      cases hb : (c.add idx st).2 with
      | true => rfl
      | false => exact absurd (add_fst_of_mem ((add_snd_false_iff c idx st).1 hb)) hne

/-- C5 witness at a concrete instance. -/
theorem c5_witness :
    State.mk sProd 0 0 ∈ ((Chart.init 0).add 0 (State.mk sProd 0 0)).1.get 0 :=
  (c5_add_contract (Chart.init 0) 0 (State.mk sProd 0 0) (by decide)).2.2.1

/-- C6: `productions_for` returns one `Production` per declared alternative
of the nonterminal, in declaration order, each pairing the nonterminal with
that alternative's right-hand side; an undeclared nonterminal yields the
empty sequence. -/
theorem c6_productions_for (g : Grammar) (nt : NonTerminal) :
    (g.productions_for nt).length = ((g.rules.lookup nt).getD []).length ∧
    (∀ k, (g.productions_for nt).get? k
        = (((g.rules.lookup nt).getD []).get? k).map (fun rhs => Production.mk nt rhs)) ∧
    (g.rules.lookup nt = none → g.productions_for nt = []) := by
  refine ⟨?_, ?_, ?_⟩
  · exact List.length_map _ _
  · intro k
    exact List.get?_map _ _ _
  · intro h
    unfold Grammar.productions_for
    rw [h]
    rfl

/-- C6 witness at a concrete instance. -/
theorem c6_witness :
    (sampleGrammar.productions_for NonTerminal.NP).get? 1
      = (((sampleGrammar.rules.lookup NonTerminal.NP).getD []).get? 1).map
          (fun rhs => Production.mk NonTerminal.NP rhs) :=
  (c6_productions_for sampleGrammar NonTerminal.NP).2.1 1

/-- C7: every item in chart column `j` satisfies `dot ≤ |rhs|` and
`origin ≤ j`: the bound holds in the seeded chart, is preserved by every
predictor/completer/scanner insertion step, and holds in the fully
populated chart. -/
theorem c7_item_bounds (g : Grammar) (tokens : List String) :
    (∀ j st, st ∈ (seedChart g tokens).get j →
        st.dot ≤ st.production.rhs.length ∧ st.start ≤ j) ∧
    (∀ (i : Nat) (c : Chart) (st0 : State),
        (∀ j st, st ∈ c.get j → st.dot ≤ st.production.rhs.length ∧ st.start ≤ j) →
        st0.dot ≤ st0.production.rhs.length → st0.start ≤ i →
        ∀ j st, st ∈ (stepState g tokens i c st0).1.get j →
          st.dot ≤ st.production.rhs.length ∧ st.start ≤ j) ∧
    (∀ j st, st ∈ (parseChart g tokens).get j →
        st.dot ≤ st.production.rhs.length ∧ st.start ≤ j) := by
  refine ⟨?_, ?_, ?_⟩
  · intro j st hst
    exact ((seedChart_inv g tokens).2.2 j st hst).2
  · intro i c st0 hc hd hs
    exact stepState_weak hc hd hs
  · intro j st hst
    exact ((parseChart_inv g tokens).2.2 j st hst).2

/-- C7 witness at a concrete instance. -/
theorem c7_witness :
    (State.mk sProd 0 0).dot ≤ (State.mk sProd 0 0).production.rhs.length ∧
    (State.mk sProd 0 0).start ≤ 0 :=
  (c7_item_bounds sampleGrammar []).1 0 (State.mk sProd 0 0) (by decide)

/-- C8: the scanner at column `i = n` (the input length) is a guarded no-op
rather than an out-of-bounds access, and an item over a production with an
empty right-hand side is immediately complete (its symbol after the dot is
absent), so empty right-hand sides cannot crash the engine. -/
theorem c8_guards (g : Grammar) (tokens : List String) (c : Chart) (st : State)
    (s : String) (p : Production) (d o : Nat) :
    (st.next_symbol = some (Symbol.t s) →
        stepState g tokens tokens.length c st = (c, false)) ∧
    (p.rhs = [] →
        (State.mk p d o).is_complete = true ∧ (State.mk p d o).next_symbol = none) := by
  constructor
  · intro h
    rw [stepState_t h, if_neg]
    · rfl
    · rintro ⟨hlt, _⟩
      exact Nat.lt_irrefl _ hlt
  · intro h
    have hc : (State.mk p d o).is_complete = true := by
      simp [State.is_complete, h]
    exact ⟨hc, next_symbol_of_complete hc⟩

/-- C8 witness at a concrete instance. -/
theorem c8_witness :
    stepState sampleGrammar ["can"] (["can"] : List String).length (Chart.init 1)
        (State.mk (Production.mk NonTerminal.V [Symbol.t "can"]) 0 0)
      = (Chart.init 1, false) ∧
    (State.mk (Production.mk NonTerminal.VP []) 0 0).is_complete = true ∧
    (State.mk (Production.mk NonTerminal.VP []) 0 0).next_symbol = none :=
  ⟨(c8_guards sampleGrammar ["can"] (Chart.init 1)
      (State.mk (Production.mk NonTerminal.V [Symbol.t "can"]) 0 0) "can"
      (Production.mk NonTerminal.VP []) 0 0).1 (by decide),
   (c8_guards sampleGrammar ["can"] (Chart.init 1)
      (State.mk (Production.mk NonTerminal.V [Symbol.t "can"]) 0 0) "can"
      (Production.mk NonTerminal.VP []) 0 0).2 rfl⟩

/-- C9: `parse` is a pure, deterministic function of the grammar and the
token sequence: equal inputs give equal results. -/
theorem c9_deterministic (p : EarleyParser) (tokens1 tokens2 : List String)
    (h : tokens1 = tokens2) : p.parse tokens1 = p.parse tokens2 := by
  rw [h]

/-- C9 witness at a concrete instance. -/
theorem c9_witness :
    EarleyParser.parse sampleParser [] = EarleyParser.parse sampleParser [] :=
  c9_deterministic sampleParser [] [] rfl

/-- C10: the count returned by `parse` never exceeds the number of declared
alternatives of the start symbol (each accepting item is determined by its
start production, and columns deduplicate); in particular the sample
grammar, whose start symbol has one alternative, never returns more
than 1. -/
theorem c10_count_bounded (g : Grammar) (tokens : List String)
    (hnd : (g.rules.map Prod.fst).Nodup) :
    (EarleyParser.mk g).parse tokens ≤ (g.productions_for g.start).length ∧
    EarleyParser.parse sampleParser tokens ≤ 1 := by
  constructor
  · exact parse_le_start_alts g tokens hnd
  · have h2 := parse_le_start_alts sampleGrammar tokens (by decide)
    have h3 : (sampleGrammar.productions_for sampleGrammar.start).length = 1 := rfl
    show EarleyParser.parse (EarleyParser.mk sampleGrammar) tokens ≤ 1
    omega

/-- C10 witness at a concrete instance. -/
theorem c10_witness :
    (EarleyParser.mk sampleGrammar).parse ["they", "can", "fish"]
        ≤ (sampleGrammar.productions_for sampleGrammar.start).length ∧
    EarleyParser.parse sampleParser ["they", "can", "fish"] ≤ 1 :=
  c10_count_bounded sampleGrammar ["they", "can", "fish"] (by decide)

end Earley
